import Mathlib

/-!
Verification development for the ColliderVM toy prototype
(`src/collidervm_toy.rs`).

The Rust source is shallowly embedded here:

* machine integers (`u8`, `u32`, `u64`) become `Nat` with explicit
  `% 2^w` / masking where overflow or truncation matters;
* the external BLAKE3 hash (the `blake3` crate) is an abstract parameter
  `hash : List Nat → List Nat` mapping a message (list of bytes) to its
  32-byte digest; theorems quantify over it, with well-formedness
  hypotheses (digest length 32, bytes < 256) where needed;
* the fallible Rust functions returning `Result` become `Except String`;
  Rust `assert!` panics become `Option` with `none` for the panic;
* Bitcoin scripts are modelled at the `Builder` abstraction level as
  lists of instructions (`push_key`, `push_int`, opcode); the externally
  supplied BLAKE3 compute fragment and the optimizer are folded into one
  abstract parameter producing an opaque instruction list.
-/

/-- Largest value of a Rust `u32`. -/
def U32_MAX : Nat := 4294967295

/-- Largest value of a Rust `u64`. -/
def U64_MAX : Nat := 18446744073709551615

/-- `u32::to_le_bytes`: the 4-byte little-endian representation. -/
def u32_le_bytes (x : Nat) : List Nat :=
  [x % 256, x / 256 % 256, x / 65536 % 256, x / 16777216 % 256]

/-- `u64::to_le_bytes`: the 8-byte little-endian representation. -/
def u64_le_bytes (x : Nat) : List Nat :=
  [x % 256, x / 256 % 256, x / 65536 % 256, x / 16777216 % 256,
   x / 4294967296 % 256, x / 1099511627776 % 256,
   x / 281474976710656 % 256, x / 72057594037927936 % 256]

/-- `u32::from_le_bytes` on a 4-byte list (defaulting absent bytes to 0). -/
def u32_of_le4 (bs : List Nat) : Nat :=
  bs.getD 0 0 + 256 * bs.getD 1 0 + 65536 * bs.getD 2 0 + 16777216 * bs.getD 3 0

/-- The message hashed by `calculate_flow_id`: input as 4 little-endian
bytes followed by the nonce as 8 little-endian bytes. -/
def flowMessage (input nonce : Nat) : List Nat :=
  u32_le_bytes input ++ u64_le_bytes nonce

/-- The mask computed in `calculate_flow_id`:
`if b_bits >= 32 { u32::MAX } else { (1u32 << b_bits) - 1 }`. -/
def maskB (b_bits : Nat) : Nat :=
  if b_bits ≥ 32 then U32_MAX else 2 ^ b_bits - 1

/-- The success bound computed in `calculate_flow_id`:
`(1u64 << l_bits) as u32`.  The `u64` shift uses the release-mode masked
shift amount (`l_bits % 64`), and the `as u32` cast truncates mod `2^32`. -/
def maxFlowId (l_bits : Nat) : Nat :=
  2 ^ (l_bits % 64) % 4294967296

/-- Embedding of `calculate_flow_id` (src/collidervm_toy.rs:80).
`hash` stands for the external BLAKE3 hash over the 12-byte message.
The source's formatted error string is replaced by a constant: no claim
inspects its content. -/
def calculate_flow_id (hash : List Nat → List Nat)
    (input nonce b_bits l_bits : Nat) : Except String (Nat × List Nat) :=
  let digest := hash (flowMessage input nonce)
  let hash_u32 := u32_of_le4 (digest.take 4)
  let prefix_b := hash_u32 &&& maskB b_bits
  if prefix_b < maxFlowId l_bits then
    Except.ok (prefix_b, digest)
  else
    Except.error "Hash prefix out of range"

/-- `expected_attempts` in `find_valid_nonce`:
`1u64.checked_shl((b_bits.saturating_sub(l_bits)) as u32).unwrap_or(u64::MAX)`.
`Nat` subtraction is saturating; the `as u32` cast is `% 2^32`;
`checked_shl` yields `none` for shift amounts ≥ 64. -/
def expectedAttempts (b_bits l_bits : Nat) : Nat :=
  let k := (b_bits - l_bits) % 4294967296
  if k ≥ 64 then U64_MAX else 2 ^ k

/-- The attempt budget of `find_valid_nonce`:
`expected_attempts.saturating_mul(100)`. -/
def attemptCap (b_bits l_bits : Nat) : Nat :=
  min (expectedAttempts b_bits l_bits * 100) U64_MAX

/-- The error message returned on nonce-counter overflow. -/
def overflowMsg : String := "nonce overflow!"

/-- The error message returned when the attempt budget is exceeded. -/
def exhaustMsg : String := "Could not find valid flow_id within 100x expected"

/-- The search loop of `find_valid_nonce` (src/collidervm_toy.rs:131):
try the current nonce; on success return `(nonce, digest, flow_id)`;
on failure increment the nonce (`checked_add`, failing at `u64::MAX`)
and give up once the nonce exceeds the attempt budget `cap`. -/
def findLoop (hash : List Nat → List Nat) (input b_bits l_bits cap : Nat)
    (nonce : Nat) : Except String (Nat × List Nat × Nat) :=
  match calculate_flow_id hash input nonce b_bits l_bits with
  | Except.ok (flow_id, digest) => Except.ok (nonce, digest, flow_id)
  | Except.error _ =>
    if nonce + 1 > U64_MAX then Except.error overflowMsg
    else if nonce + 1 > cap then Except.error exhaustMsg
    else findLoop hash input b_bits l_bits cap (nonce + 1)
termination_by U64_MAX - nonce
decreasing_by simp only [U64_MAX] at *; omega

/-- Embedding of `find_valid_nonce` (src/collidervm_toy.rs:114):
search nonces 0, 1, 2, … with the budget `attemptCap`. -/
def find_valid_nonce (hash : List Nat → List Nat)
    (input b_bits l_bits : Nat) : Except String (Nat × List Nat × Nat) :=
  findLoop hash input b_bits l_bits (attemptCap b_bits l_bits) 0

/-- Embedding of `flow_id_to_prefix_bytes` (src/collidervm_toy.rs:153).
The two `assert!`s are modelled as `none` (panic); otherwise the leading
`b_bits / 8` little-endian bytes of the flow id are expanded into nibbles,
high nibble first. -/
def flow_id_to_prefix_bytes (flow_id b_bits : Nat) : Option (List Nat) :=
  if b_bits > 32 then none
  else if b_bits % 8 ≠ 0 then none
  else
    some (((u32_le_bytes flow_id).take (b_bits / 8)).flatMap
      (fun byte => [(byte >>> 4) &&& 15, byte &&& 15]))

/-- Recombine consecutive nibble pairs as `16 * high + low`
(the inverse direction of the nibble expansion, used to state the
round-trip property). -/
def recombinePairs : List Nat → List Nat
  | hi :: lo :: rest => (16 * hi + lo) :: recombinePairs rest
  | _ => []

-- Sanity examples (concrete evaluation of the executable definitions).
example : flow_id_to_prefix_bytes 13 16 = some [0, 13, 0, 0] := by decide
example : recombinePairs [0, 13, 0, 0] = [13, 0] := by decide
example : u32_le_bytes 13 = [13, 0, 0, 0] := by decide
example : maxFlowId 32 = 0 := by decide
example : maskB 16 = 65535 := by decide

/-!
## Script model

`bitcoin::script::Builder` is modelled as a list of instructions: a key
push, an integer push (`push_int`), or a single opcode.  A compiled
`ScriptBuf` is then the concatenation of such lists; the externally
supplied, already-optimized BLAKE3 compute fragment is an opaque
instruction list produced by an abstract parameter.
-/

/-- One Builder-level instruction of a Bitcoin script. -/
inductive Instr : Type
  | pushKey (key : Nat)
  | pushInt (value : Int)
  | op (code : Nat)
deriving Repr, DecidableEq

/-- A script is a list of Builder-level instructions. -/
abbrev Script : Type := List Instr

/-- Opcode byte of OP_CHECKSIGVERIFY. -/
def OP_CHECKSIGVERIFY : Nat := 173
/-- Opcode byte of OP_DUP. -/
def OP_DUP : Nat := 118
/-- Opcode byte of OP_GREATERTHAN. -/
def OP_GREATERTHAN : Nat := 160
/-- Opcode byte of OP_LESSTHAN. -/
def OP_LESSTHAN : Nat := 159
/-- Opcode byte of OP_VERIFY. -/
def OP_VERIFY : Nat := 105
/-- Opcode byte of OP_DROP. -/
def OP_DROP : Nat := 117
/-- Opcode byte of OP_EQUALVERIFY. -/
def OP_EQUALVERIFY : Nat := 136
/-- Opcode byte of OP_TRUE (= OP_1). -/
def OP_TRUE : Nat := 81

/-- `F1_THRESHOLD` (src/collidervm_toy.rs:18): x must be > 100. -/
def F1_THRESHOLD : Nat := 100
/-- `F2_THRESHOLD` (src/collidervm_toy.rs:20): x must be < 200. -/
def F2_THRESHOLD : Nat := 200

/-- Embedding of `combine_scripts` (src/collidervm_toy.rs:173):
concatenate the fragments. -/
def combine_scripts (fragments : List Script) : Script :=
  fragments.flatten

/-- Embedding of `build_prefix_equalverify` (src/collidervm_toy.rs:189):
for each expected nibble, taken in reverse order, push the nibble value
and emit OP_EQUALVERIFY. -/
def build_prefix_equalverify (prefix_data : List Nat) : Script :=
  prefix_data.reverse.flatMap
    (fun nibble => [Instr.pushInt (Int.ofNat nibble), Instr.op OP_EQUALVERIFY])

/-- Embedding of `build_script_f1_blake3_locked` (src/collidervm_toy.rs:205).
`blake3_fragment msg_len limb_len` stands for the externally supplied,
compiled and optimized BLAKE3 compute fragment
(`optimizer::optimize(blake3_compute_script_with_limb(msg_len, limb_len).compile())`). -/
def build_script_f1_blake3_locked (blake3_fragment : Nat → Nat → Script)
    (signer_pubkey : Nat) (prefix_data : List Nat) (_b_bits : Nat) : Script :=
  let prefix_len := prefix_data.length
  let total_msg_len := 12
  let limb_len := 4
  let sig_check : Script :=
    [Instr.pushKey signer_pubkey, Instr.op OP_CHECKSIGVERIFY]
  let x_greater_check : Script :=
    [Instr.op OP_DUP, Instr.pushInt (Int.ofNat F1_THRESHOLD),
     Instr.op OP_GREATERTHAN, Instr.op OP_VERIFY]
  let reorder_for_blake : Script := [Instr.op OP_DROP]
  let compute_script := blake3_fragment total_msg_len limb_len
  let blake3_script_hash_len_nibbles := 64
  let to_drop := blake3_script_hash_len_nibbles - prefix_len
  let drop_script : Script := List.replicate to_drop (Instr.op OP_DROP)
  let prefix_script := build_prefix_equalverify prefix_data
  let success_script : Script := [Instr.op OP_TRUE]
  combine_scripts [sig_check, x_greater_check, reorder_for_blake,
    compute_script, drop_script, prefix_script, success_script]

/-- Embedding of `build_script_f2_blake3_locked` (src/collidervm_toy.rs:272). -/
def build_script_f2_blake3_locked (blake3_fragment : Nat → Nat → Script)
    (signer_pubkey : Nat) (prefix_data : List Nat) (_b_bits : Nat) : Script :=
  let prefix_len := prefix_data.length
  let total_msg_len := 12
  let limb_len := 4
  let sig_check : Script :=
    [Instr.pushKey signer_pubkey, Instr.op OP_CHECKSIGVERIFY]
  let x_less_check : Script :=
    [Instr.op OP_DUP, Instr.pushInt (Int.ofNat F2_THRESHOLD),
     Instr.op OP_LESSTHAN, Instr.op OP_VERIFY]
  let reorder_for_blake : Script := [Instr.op OP_DROP]
  let compute_script := blake3_fragment total_msg_len limb_len
  let blake3_script_hash_len_nibbles := 64
  let to_drop := blake3_script_hash_len_nibbles - prefix_len
  let drop_script : Script := List.replicate to_drop (Instr.op OP_DROP)
  let prefix_script := build_prefix_equalverify prefix_data
  let success_script : Script := [Instr.op OP_TRUE]
  combine_scripts [sig_check, x_less_check, reorder_for_blake,
    compute_script, drop_script, prefix_script, success_script]

/-!
## Mini stack semantics

To state what the prefix-match fragment does operationally, the external
stack machine's semantics is modelled for exactly the instructions that
fragment uses: an integer push pushes its value, OP_EQUALVERIFY pops two
values and aborts (result `none`) unless they are equal.  Any other
instruction aborts, so the semantics never guesses behaviour the
fragment does not rely on.  The stack is a list with its head on top.
-/

/-- Small-step semantics of one instruction on the evaluation stack. -/
def stepInstr : Instr → List Int → Option (List Int)
  | Instr.pushInt v, st => some (v :: st)
  | Instr.op c, st =>
    if c = OP_EQUALVERIFY then
      match st with
      | a :: b :: rest => if a = b then some rest else none
      | _ => none
    else none
  | _, _ => none

/-- Run a script fragment on a stack, aborting (`none`) on any failed
check. -/
def runFragment : Script → List Int → Option (List Int)
  | [], st => some st
  | i :: rest, st =>
    match stepInstr i st with
    | some st2 => runFragment rest st2
    | none => none

example :
    runFragment (build_prefix_equalverify [0, 13, 0, 0]) [0, 0, 13, 0, 7]
      = some [7] := by decide
example :
    runFragment (build_prefix_equalverify [0, 13, 0, 0]) [0, 0, 12, 0, 7]
      = none := by decide

/-!
## Properties of the nonce-search loop
-/

/-- If the search loop started at `nonce` succeeds with `(n, d, f)`, then
`n` is at least `nonce`, the flow-id computation succeeds at `n` with
exactly `(f, d)`, and it fails for every nonce between `nonce` and `n`. -/
theorem findLoop_ok_spec (hash : List Nat → List Nat)
    (input b_bits l_bits cap : Nat) :
    ∀ nonce n d f,
      findLoop hash input b_bits l_bits cap nonce = Except.ok (n, d, f) →
      nonce ≤ n ∧
      calculate_flow_id hash input n b_bits l_bits = Except.ok (f, d) ∧
      ∀ m, nonce ≤ m → m < n →
        ∃ e, calculate_flow_id hash input m b_bits l_bits = Except.error e := by
  have key : ∀ gas nonce, U64_MAX - nonce ≤ gas → ∀ n d f,
      findLoop hash input b_bits l_bits cap nonce = Except.ok (n, d, f) →
      nonce ≤ n ∧
      calculate_flow_id hash input n b_bits l_bits = Except.ok (f, d) ∧
      ∀ m, nonce ≤ m → m < n →
        ∃ e, calculate_flow_id hash input m b_bits l_bits = Except.error e := by
    intro gas
    induction gas with
    | zero =>
      intro nonce hle n d f h
      rw [findLoop.eq_def] at h
      cases hc : calculate_flow_id hash input nonce b_bits l_bits with
      | ok p =>
        rw [hc] at h
        obtain ⟨fid, dig⟩ := p
        simp only [Except.ok.injEq, Prod.mk.injEq] at h
        obtain ⟨h1, h2, h3⟩ := h
        subst h1; subst h2; subst h3
        refine ⟨le_refl _, hc, ?_⟩
        intro m hm1 hm2; omega
      | error e =>
        rw [hc] at h
        have hov : nonce + 1 > U64_MAX := by omega
        simp only [hov, if_pos] at h
        exact absurd h (by simp)
    | succ gas ih =>
      intro nonce hle n d f h
      rw [findLoop.eq_def] at h
      cases hc : calculate_flow_id hash input nonce b_bits l_bits with
      | ok p =>
        rw [hc] at h
        obtain ⟨fid, dig⟩ := p
        simp only [Except.ok.injEq, Prod.mk.injEq] at h
        obtain ⟨h1, h2, h3⟩ := h
        subst h1; subst h2; subst h3
        refine ⟨le_refl _, hc, ?_⟩
        intro m hm1 hm2; omega
      | error e =>
        rw [hc] at h
        by_cases hov : nonce + 1 > U64_MAX
        · simp only [hov, if_pos] at h
          exact absurd h (by simp)
        · simp only [hov, if_neg, if_false] at h
          by_cases hcap : nonce + 1 > cap
          · simp only [hcap, if_pos] at h
            exact absurd h (by simp)
          · simp only [hcap, if_neg, if_false] at h
            have hrec := ih (nonce + 1) (by omega) n d f h
            obtain ⟨r1, r2, r3⟩ := hrec
            refine ⟨by omega, r2, ?_⟩
            intro m hm1 hm2
            by_cases hm : m = nonce
            · subst hm; exact ⟨e, hc⟩
            · exact r3 m (by omega) hm2
  intro nonce
  exact key (U64_MAX - nonce) nonce (le_refl _)

/-- If the flow-id computation fails for every nonce from `nonce` up to
the budget `cap`, the search loop fails, with the overflow message when
`cap` is `u64::MAX` and the exhaustion message otherwise. -/
theorem findLoop_err_of_all_err (hash : List Nat → List Nat)
    (input b_bits l_bits cap : Nat) (hcap : cap ≤ U64_MAX) :
    ∀ nonce, nonce ≤ cap →
      (∀ m, nonce ≤ m → m ≤ cap →
        ∃ e, calculate_flow_id hash input m b_bits l_bits = Except.error e) →
      findLoop hash input b_bits l_bits cap nonce =
        Except.error (if cap = U64_MAX then overflowMsg else exhaustMsg) := by
  have key : ∀ gas nonce, U64_MAX - nonce ≤ gas → nonce ≤ cap →
      (∀ m, nonce ≤ m → m ≤ cap →
        ∃ e, calculate_flow_id hash input m b_bits l_bits = Except.error e) →
      findLoop hash input b_bits l_bits cap nonce =
        Except.error (if cap = U64_MAX then overflowMsg else exhaustMsg) := by
    intro gas
    induction gas with
    | zero =>
      intro nonce hgas hle hall
      obtain ⟨e, hc⟩ := hall nonce (le_refl _) hle
      rw [findLoop.eq_def, hc]
      have hov : nonce + 1 > U64_MAX := by omega
      have hceq : cap = U64_MAX := by omega
      simp only [hov, if_pos, hceq, if_pos rfl]
    | succ gas ih =>
      intro nonce hgas hle hall
      obtain ⟨e, hc⟩ := hall nonce (le_refl _) hle
      rw [findLoop.eq_def, hc]
      by_cases hov : nonce + 1 > U64_MAX
      · have hceq : cap = U64_MAX := by omega
        simp only [hov, if_pos, hceq, if_pos rfl]
      · by_cases hcap2 : nonce + 1 > cap
        · have hcne : cap ≠ U64_MAX := by omega
          simp only [hov, if_neg, if_false, hcap2, if_pos, hcne, if_neg]
        · have hrec := ih (nonce + 1) (by omega) (by omega)
            (fun m hm1 hm2 => hall m (by omega) hm2)
          simp only [hov, if_neg, if_false, hcap2, if_pos, hrec]
  intro nonce
  exact key (U64_MAX - nonce) nonce (le_refl _)

/-- If the search loop started at `nonce ≤ cap` fails, then the flow-id
computation fails for every nonce from `nonce` up to the budget `cap`,
and the error is the overflow message when `cap` is `u64::MAX` and the
exhaustion message otherwise. -/
theorem findLoop_err_spec (hash : List Nat → List Nat)
    (input b_bits l_bits cap : Nat) (hcap : cap ≤ U64_MAX) :
    ∀ nonce e, nonce ≤ cap →
      findLoop hash input b_bits l_bits cap nonce = Except.error e →
      (∀ m, nonce ≤ m → m ≤ cap →
        ∃ e2, calculate_flow_id hash input m b_bits l_bits = Except.error e2) ∧
      e = (if cap = U64_MAX then overflowMsg else exhaustMsg) := by
  have key : ∀ gas nonce e, U64_MAX - nonce ≤ gas → nonce ≤ cap →
      findLoop hash input b_bits l_bits cap nonce = Except.error e →
      (∀ m, nonce ≤ m → m ≤ cap →
        ∃ e2, calculate_flow_id hash input m b_bits l_bits = Except.error e2) ∧
      e = (if cap = U64_MAX then overflowMsg else exhaustMsg) := by
    intro gas
    induction gas with
    | zero =>
      intro nonce e hgas hle h
      rw [findLoop.eq_def] at h
      cases hc : calculate_flow_id hash input nonce b_bits l_bits with
      | ok p =>
        rw [hc] at h
        obtain ⟨fid, dig⟩ := p
        exact Except.noConfusion h
      | error e1 =>
        rw [hc] at h
        have hov : nonce + 1 > U64_MAX := by omega
        have hceq : cap = U64_MAX := by omega
        simp only [hov, if_pos, Except.error.injEq] at h
        constructor
        · intro m hm1 hm2
          have hm : m = nonce := by omega
          subst hm; exact ⟨e1, hc⟩
        · rw [hceq, if_pos rfl]; exact h.symm
    | succ gas ih =>
      intro nonce e hgas hle h
      rw [findLoop.eq_def] at h
      cases hc : calculate_flow_id hash input nonce b_bits l_bits with
      | ok p =>
        rw [hc] at h
        obtain ⟨fid, dig⟩ := p
        exact Except.noConfusion h
      | error e1 =>
        rw [hc] at h
        by_cases hov : nonce + 1 > U64_MAX
        · have hceq : cap = U64_MAX := by omega
          simp only [hov, if_pos, Except.error.injEq] at h
          constructor
          · intro m hm1 hm2
            have hm : m = nonce := by omega
            subst hm; exact ⟨e1, hc⟩
          · rw [hceq, if_pos rfl]; exact h.symm
        · by_cases hcap2 : nonce + 1 > cap
          · have hcne : cap ≠ U64_MAX := by omega
            simp only [hov, if_neg, if_false, hcap2, if_pos,
              Except.error.injEq] at h
            constructor
            · intro m hm1 hm2
              have hm : m = nonce := by omega
              subst hm; exact ⟨e1, hc⟩
            · rw [if_neg hcne]; exact h.symm
          · simp only [hov, if_neg, if_false, hcap2, if_pos] at h
            have hrec := ih (nonce + 1) e (by omega) (by omega) h
            refine ⟨?_, hrec.2⟩
            intro m hm1 hm2
            by_cases hm : m = nonce
            · subst hm; exact ⟨e1, hc⟩
            · exact hrec.1 m (by omega) hm2
  intro nonce e
  exact key (U64_MAX - nonce) nonce e (le_refl _)

/-!
## Arithmetic helpers
-/

/-- Unfolding of a successful `calculate_flow_id`: the returned flow id
is the masked 32-bit little-endian head of the digest, the digest is the
hash of the 12-byte message, and the flow id is below the bound. -/
theorem calculate_flow_id_ok_elim (hash : List Nat → List Nat)
    (input nonce b_bits l_bits f : Nat) (d : List Nat)
    (h : calculate_flow_id hash input nonce b_bits l_bits = Except.ok (f, d)) :
    f = u32_of_le4 ((hash (flowMessage input nonce)).take 4) &&& maskB b_bits ∧
    d = hash (flowMessage input nonce) ∧ f < maxFlowId l_bits := by
  unfold calculate_flow_id at h
  by_cases hlt : (u32_of_le4 ((hash (flowMessage input nonce)).take 4) &&&
      maskB b_bits) < maxFlowId l_bits
  · simp only [hlt, if_pos, Except.ok.injEq, Prod.mk.injEq] at h
    exact ⟨h.1.symm, h.2.symm, h.1 ▸ hlt⟩
  · simp only [hlt, if_neg, if_false] at h
    exact Except.noConfusion h

/-- Unfolding of a failed `calculate_flow_id`: the masked 32-bit
little-endian head of the digest is not below the bound. -/
theorem calculate_flow_id_err_elim (hash : List Nat → List Nat)
    (input nonce b_bits l_bits : Nat) (e : String)
    (h : calculate_flow_id hash input nonce b_bits l_bits = Except.error e) :
    ¬ (u32_of_le4 ((hash (flowMessage input nonce)).take 4) &&& maskB b_bits)
        < maxFlowId l_bits := by
  intro hlt
  unfold calculate_flow_id at h
  simp only [hlt, if_pos] at h
  exact Except.noConfusion h

/-- `calculate_flow_id` fails exactly when the masked prefix is not
below the bound. -/
theorem calculate_flow_id_err_iff (hash : List Nat → List Nat)
    (input nonce b_bits l_bits : Nat) :
    (∃ e, calculate_flow_id hash input nonce b_bits l_bits = Except.error e) ↔
    ¬ (u32_of_le4 ((hash (flowMessage input nonce)).take 4) &&& maskB b_bits)
        < maxFlowId l_bits := by
  constructor
  · rintro ⟨e, h⟩
    exact calculate_flow_id_err_elim hash input nonce b_bits l_bits e h
  · intro hge
    refine ⟨"Hash prefix out of range", ?_⟩
    unfold calculate_flow_id
    simp only [hge, if_neg, if_false]

/-- The mask as the claim words it: all-ones for `B = 32`,
`(1 << B) − 1` otherwise. -/
def maskSpec (b_bits : Nat) : Nat :=
  if b_bits = 32 then U32_MAX else 2 ^ b_bits - 1

/-- The claim-side flow-id prefix formula: the first 4 digest bytes read
as a little-endian 32-bit integer, masked by `maskSpec`. -/
def specPrefix (hash : List Nat → List Nat) (input nonce b_bits : Nat) : Nat :=
  u32_of_le4 ((hash (flowMessage input nonce)).take 4) &&& maskSpec b_bits

/-- Entries of a list of bytes are below 256 at every `getD` position. -/
theorem getD_lt_256 (bs : List Nat) (h : ∀ y ∈ bs, y < 256) (i : Nat) :
    bs.getD i 0 < 256 := by
  rcases Nat.lt_or_ge i bs.length with hi | hi
  · rw [List.getD_eq_getElem bs 0 hi]
    exact h _ (List.getElem_mem hi)
  · rw [List.getD_eq_default bs 0 hi]
    omega

/-- A 32-bit little-endian read of a byte list is below `2^32`. -/
theorem u32_of_le4_lt (bs : List Nat) (h : ∀ y ∈ bs, y < 256) :
    u32_of_le4 bs < 4294967296 := by
  have h0 := getD_lt_256 bs h 0
  have h1 := getD_lt_256 bs h 1
  have h2 := getD_lt_256 bs h 2
  have h3 := getD_lt_256 bs h 3
  unfold u32_of_le4
  omega

/-- On 32-bit values the code mask (`maskB`) and the claim mask
(`maskSpec`) give the same masked value. -/
theorem land_maskSpec_eq_maskB (x b_bits : Nat) (hx : x < 4294967296) :
    x &&& maskSpec b_bits = x &&& maskB b_bits := by
  unfold maskSpec maskB U32_MAX
  rcases Nat.lt_trichotomy b_bits 32 with hb | hb | hb
  · rw [if_neg (by omega), if_neg (by omega)]
  · rw [if_pos hb, if_pos (by omega)]
  · rw [if_neg (by omega), if_pos (by omega)]
    have e1 : x &&& 2 ^ b_bits - 1 = x % 2 ^ b_bits :=
      Nat.and_pow_two_sub_one_eq_mod x b_bits
    have e2 : (4294967295 : Nat) = 2 ^ 32 - 1 := by norm_num
    have e3 : x &&& 2 ^ 32 - 1 = x % 2 ^ 32 :=
      Nat.and_pow_two_sub_one_eq_mod x 32
    have hxb : x < 2 ^ b_bits := by
      calc x < 4294967296 := hx
        _ = 2 ^ 32 := by norm_num
        _ ≤ 2 ^ b_bits := Nat.pow_le_pow_right (by omega) (by omega)
    rw [e2, e1, e3, Nat.mod_eq_of_lt hxb, Nat.mod_eq_of_lt (by omega)]

/-- For `l_bits < 32` the success bound is exactly `2 ^ l_bits`. -/
theorem maxFlowId_of_lt (l_bits : Nat) (h : l_bits < 32) :
    maxFlowId l_bits = 2 ^ l_bits := by
  unfold maxFlowId
  have hm : l_bits % 64 = l_bits := Nat.mod_eq_of_lt (by omega)
  rw [hm]
  have hp : (2 : Nat) ^ l_bits < 4294967296 := by
    calc (2 : Nat) ^ l_bits < 2 ^ 32 := Nat.pow_lt_pow_right (by omega) h
      _ = 4294967296 := by norm_num
  exact Nat.mod_eq_of_lt hp

/-- For `32 ≤ l_bits < 64` the success bound truncates to zero. -/
theorem maxFlowId_eq_zero (l_bits : Nat) (h1 : 32 ≤ l_bits) (h2 : l_bits < 64) :
    maxFlowId l_bits = 0 := by
  unfold maxFlowId
  have hm : l_bits % 64 = l_bits := Nat.mod_eq_of_lt (by omega)
  rw [hm]
  have hdvd : (4294967296 : Nat) ∣ 2 ^ l_bits := by
    have h32 : (4294967296 : Nat) = 2 ^ 32 := by norm_num
    rw [h32]
    exact Nat.pow_dvd_pow 2 h1
  exact Nat.mod_eq_zero_of_dvd hdvd

/-!
## Claim C1
-/

/-- Claim C1: `find_valid_nonce(x, B, L)` tries nonces 0, 1, 2, … in order
and, on success, returns the first (smallest) nonce whose digest prefix
(the first 4 bytes of `Hash(x as LE4 ‖ n as LE8)` read as a little-endian
32-bit integer, masked by `mask(B)`) is below `2^L`; it returns that
nonce with the full 32-byte digest and that prefix as the flow id, so
every returned flow id is below `2^L`. -/
theorem flow_oracle_first_success_c1
    (hash : List Nat → List Nat) (x b_bits l_bits n : Nat)
    (d : List Nat) (f : Nat)
    (hlen : ∀ m, (hash m).length = 32)
    (hbyte : ∀ m y, y ∈ hash m → y < 256)
    (hl : l_bits ≤ 32)
    (hok : find_valid_nonce hash x b_bits l_bits = Except.ok (n, d, f)) :
    d = hash (flowMessage x n) ∧ d.length = 32 ∧
    f = specPrefix hash x n b_bits ∧ f < 2 ^ l_bits ∧
    ∀ m, m < n → ¬ specPrefix hash x m b_bits < 2 ^ l_bits := by
  obtain ⟨-, hcalc, hfail⟩ :=
    findLoop_ok_spec hash x b_bits l_bits (attemptCap b_bits l_bits) 0 n d f hok
  obtain ⟨hf, hd, hlt⟩ :=
    calculate_flow_id_ok_elim hash x n b_bits l_bits f d hcalc
  have hx32 : ∀ m, u32_of_le4 ((hash (flowMessage x m)).take 4) < 4294967296 := by
    intro m
    apply u32_of_le4_lt
    intro y hy
    exact hbyte _ y (List.mem_of_mem_take hy)
  rcases Nat.lt_or_ge l_bits 32 with hl32 | hl32
  · have hmax := maxFlowId_of_lt l_bits hl32
    rw [hmax] at hlt
    have hfspec : f = specPrefix hash x n b_bits := by
      rw [hf]
      unfold specPrefix
      exact (land_maskSpec_eq_maskB _ b_bits (hx32 n)).symm
    refine ⟨hd, by rw [hd, hlen], hfspec, hlt, ?_⟩
    intro m hm hcontra
    obtain ⟨e, herr⟩ := hfail m (Nat.zero_le m) hm
    apply calculate_flow_id_err_elim hash x m b_bits l_bits e herr
    rw [hmax]
    unfold specPrefix at hcontra
    rw [land_maskSpec_eq_maskB _ b_bits (hx32 m)] at hcontra
    exact hcontra
  · have hl' : l_bits = 32 := by omega
    rw [hl', maxFlowId_eq_zero 32 (le_refl _) (by omega)] at hlt
    omega

/-- The constant all-zero digest, a concrete well-formed stand-in for
the external hash in witnesses. -/
def hashZero : List Nat → List Nat := fun _ => List.replicate 32 0

/-- Concrete evaluation of the nonce search under `hashZero`:
the very first nonce succeeds with flow id 0. -/
theorem find_valid_nonce_hashZero :
    find_valid_nonce hashZero 123 8 4 = Except.ok (0, List.replicate 32 0, 0) := by
  unfold find_valid_nonce
  rw [findLoop.eq_def]
  have hc : calculate_flow_id hashZero 123 0 8 4 =
      Except.ok (0, List.replicate 32 0) := by rfl
  rw [hc]

/-- Witness for C1 at the concrete hash `hashZero`, input 123, B = 8,
L = 4: the search returns nonce 0, the zero digest, and flow id 0. -/
theorem flow_oracle_first_success_c1_witness :
    List.replicate 32 0 = hashZero (flowMessage 123 0) ∧
    (List.replicate 32 0).length = 32 ∧
    (0 : Nat) = specPrefix hashZero 123 0 8 ∧
    (0 : Nat) < 2 ^ 4 ∧
    ∀ m, m < 0 → ¬ specPrefix hashZero 123 m 8 < 2 ^ 4 :=
  flow_oracle_first_success_c1 hashZero 123 8 4 0 (List.replicate 32 0) 0
    (fun _ => by simp [hashZero])
    (fun _ y hy => by
      have := List.eq_of_mem_replicate hy
      omega)
    (by norm_num)
    find_valid_nonce_hashZero

/-!
## Claims C4, C3, C10
-/

/-- Claim C4: `find_valid_nonce` returns an `Err` exactly when every
nonce up to the attempt budget fails the flow-id computation; the only
surfaced errors are the exhaustion error (budget exceeded) and the
nonce-counter overflow error; an out-of-range prefix for an individual
nonce is retried internally and never surfaced.  The third conjunct ties
the budget to the claim formula `100 × 2^(B−L)` on the sensible domain. -/
theorem find_valid_nonce_err_characterization_c4
    (hash : List Nat → List Nat) (x b_bits l_bits : Nat) :
    ((∃ e, find_valid_nonce hash x b_bits l_bits = Except.error e) ↔
      (∀ m, m ≤ attemptCap b_bits l_bits →
        ∃ e2, calculate_flow_id hash x m b_bits l_bits = Except.error e2)) ∧
    (∀ e, find_valid_nonce hash x b_bits l_bits = Except.error e →
      e = (if attemptCap b_bits l_bits = U64_MAX then overflowMsg else exhaustMsg)) ∧
    (b_bits - l_bits ≤ 57 →
      attemptCap b_bits l_bits = 2 ^ (b_bits - l_bits) * 100) := by
  have hcap : attemptCap b_bits l_bits ≤ U64_MAX := min_le_right _ _
  refine ⟨⟨?_, ?_⟩, ?_, ?_⟩
  · rintro ⟨e, he⟩
    have hspec := findLoop_err_spec hash x b_bits l_bits
      (attemptCap b_bits l_bits) hcap 0 e (Nat.zero_le _) he
    exact fun m hm => hspec.1 m (Nat.zero_le m) hm
  · intro hall
    have h := findLoop_err_of_all_err hash x b_bits l_bits
      (attemptCap b_bits l_bits) hcap 0 (Nat.zero_le _)
      (fun m _ hm2 => hall m hm2)
    exact ⟨_, h⟩
  · intro e he
    exact (findLoop_err_spec hash x b_bits l_bits
      (attemptCap b_bits l_bits) hcap 0 e (Nat.zero_le _) he).2
  · intro hd
    unfold attemptCap expectedAttempts
    have hk : (b_bits - l_bits) % 4294967296 = b_bits - l_bits :=
      Nat.mod_eq_of_lt (by omega)
    rw [hk]
    rw [if_neg (by omega)]
    have hb : (2 : Nat) ^ (b_bits - l_bits) * 100 ≤ 2 ^ 57 * 100 := by
      have := Nat.pow_le_pow_right (show 0 < 2 by omega) hd
      omega
    unfold U64_MAX
    omega

/-- A constant digest whose 32-bit little-endian head is 1; used to
exhibit a search that never succeeds at `L = 0`. -/
def hashOne : List Nat → List Nat := fun _ => 1 :: List.replicate 31 0

/-- Witness for C4 at the concrete hash `hashOne`, input 5, B = 8,
L = 0: the prefix is always 1 and the bound is 1, so every nonce fails. -/
theorem find_valid_nonce_err_characterization_c4_witness :
    ((∃ e, find_valid_nonce hashOne 5 8 0 = Except.error e) ↔
      (∀ m, m ≤ attemptCap 8 0 →
        ∃ e2, calculate_flow_id hashOne 5 m 8 0 = Except.error e2)) ∧
    (∀ e, find_valid_nonce hashOne 5 8 0 = Except.error e →
      e = (if attemptCap 8 0 = U64_MAX then overflowMsg else exhaustMsg)) ∧
    ((8 : Nat) - 0 ≤ 57 → attemptCap 8 0 = 2 ^ (8 - 0) * 100) :=
  find_valid_nonce_err_characterization_c4 hashOne 5 8 0

/-- Under the 32-bit truncation of `(1u64 << l_bits) as u32`, the bound
is 0 for every `32 ≤ l_bits < 64`, so `calculate_flow_id` fails for
every input, nonce, and prefix width. -/
theorem calculate_flow_id_l32_errs (hash : List Nat → List Nat)
    (x n b_bits l_bits : Nat) (h1 : 32 ≤ l_bits) (h2 : l_bits < 64) :
    calculate_flow_id hash x n b_bits l_bits =
      Except.error "Hash prefix out of range" := by
  unfold calculate_flow_id
  rw [maxFlowId_eq_zero l_bits h1 h2]
  simp

/-- With parameters `B = 32`, `L = 32` the search always ends with the
exhaustion error, under every hash function. -/
theorem find_valid_nonce_32_32_errs (hash : List Nat → List Nat) (x : Nat) :
    find_valid_nonce hash x 32 32 = Except.error exhaustMsg := by
  have hcapv : attemptCap 32 32 = 100 := by decide
  have hcap : attemptCap 32 32 ≤ U64_MAX := min_le_right _ _
  have hall : ∀ m, 0 ≤ m → m ≤ attemptCap 32 32 →
      ∃ e, calculate_flow_id hash x m 32 32 = Except.error e :=
    fun m _ _ =>
      ⟨"Hash prefix out of range",
        calculate_flow_id_l32_errs hash x m 32 32 (le_refl _) (by omega)⟩
  have := findLoop_err_of_all_err hash x 32 32 (attemptCap 32 32) hcap 0
    (Nat.zero_le _) hall
  unfold find_valid_nonce
  rw [this, if_neg (by rw [hcapv]; unfold U64_MAX; omega)]

/-- Claim C3 (code bug): the spec promises that for all
`B ∈ {8,16,24,32}` and `L ≤ B` the oracle succeeds within its cap with
`flow_id < 2^L`, but at `B = 32, L = 32` the truncated bound
`(1u64 << 32) as u32 = 0` makes every attempt fail, so the search always
returns the exhaustion error, whatever the hash. -/
theorem oracle_b32_l32_always_errs_c3 :
    ∀ (hash : List Nat → List Nat) (x : Nat),
      find_valid_nonce hash x 32 32 = Except.error exhaustMsg :=
  fun hash x => find_valid_nonce_32_32_errs hash x

/-- Claim C10: when `l_bits = 32` (or larger, up to the shift-masking
limit 64), the success bound `(1u64 << l_bits) as u32` is 0, so
`calculate_flow_id` returns `Err` for every input and nonce, and
`find_valid_nonce(x, 32, 32)` always ends with the exhaustion error even
though `L ≤ B` holds. -/
theorem truncated_bound_l32_c10 :
    maxFlowId 32 = 0 ∧
    (∀ (hash : List Nat → List Nat) (x n b_bits l_bits : Nat),
      32 ≤ l_bits → l_bits < 64 →
      calculate_flow_id hash x n b_bits l_bits =
        Except.error "Hash prefix out of range") ∧
    (∀ (hash : List Nat → List Nat) (x : Nat),
      find_valid_nonce hash x 32 32 = Except.error exhaustMsg) := by
  refine ⟨by decide, ?_, ?_⟩
  · intro hash x n b_bits l_bits h1 h2
    exact calculate_flow_id_l32_errs hash x n b_bits l_bits h1 h2
  · intro hash x
    exact find_valid_nonce_32_32_errs hash x

/-- Witness for C10 at the concrete hash `hashZero` and concrete
parameters. -/
theorem truncated_bound_l32_c10_witness :
    calculate_flow_id hashZero 0 0 32 32 =
      Except.error "Hash prefix out of range" ∧
    find_valid_nonce hashZero 0 32 32 = Except.error exhaustMsg :=
  ⟨truncated_bound_l32_c10.2.1 hashZero 0 0 32 32 (by norm_num) (by norm_num),
   truncated_bound_l32_c10.2.2 hashZero 0⟩

/-!
## Claims C5, C6, C8 (nibble codec)
-/

/-- On bytes, the source's shift-and-mask nibble extraction agrees with
division and remainder by 16. -/
theorem nibble_ops_eq :
    ∀ byte, byte < 256 →
      (byte >>> 4) &&& 15 = byte / 16 ∧ byte &&& 15 = byte % 16 := by
  intro byte h
  have e1 : byte >>> 4 = byte / 16 := by
    rw [Nat.shiftRight_eq_div_pow]
  have e2 : byte &&& 15 = byte % 16 := by
    have h16 : (15 : Nat) = 2 ^ 4 - 1 := by norm_num
    rw [h16, Nat.and_pow_two_sub_one_eq_mod]
  have e3 : (byte / 16) &&& 15 = byte / 16 % 16 := by
    have h16 : (15 : Nat) = 2 ^ 4 - 1 := by norm_num
    rw [h16, Nat.and_pow_two_sub_one_eq_mod]
  have e4 : byte / 16 % 16 = byte / 16 := Nat.mod_eq_of_lt (by omega)
  constructor
  · rw [e1, e3, e4]
  · exact e2

/-- On bytes, recombining the two extracted nibbles as `16*hi + lo`
restores the byte. -/
theorem nibble_recomb :
    ∀ byte, byte < 256 →
      16 * ((byte >>> 4) &&& 15) + (byte &&& 15) = byte := by
  intro byte h
  obtain ⟨e1, e2⟩ := nibble_ops_eq byte h
  rw [e1, e2]
  omega

/-- All entries of a little-endian byte representation are bytes. -/
theorem u32_le_bytes_lt (x : Nat) : ∀ y ∈ u32_le_bytes x, y < 256 := by
  intro y hy
  unfold u32_le_bytes at hy
  simp only [List.mem_cons, List.mem_singleton, List.not_mem_nil, or_false] at hy
  rcases hy with h | h | h | h <;> subst h <;> exact Nat.mod_lt _ (by omega)

/-- Nibble expansion agrees with the div/mod formulation on byte lists. -/
theorem flatMap_nibbles_eq (bs : List Nat) (h : ∀ y ∈ bs, y < 256) :
    bs.flatMap (fun byte => [(byte >>> 4) &&& 15, byte &&& 15]) =
      bs.flatMap (fun byte => [byte / 16, byte % 16]) := by
  induction bs with
  | nil => rfl
  | cons b rest ih =>
    have hb := h b (List.mem_cons_self b rest)
    have hr : ∀ y ∈ rest, y < 256 := fun y hy => h y (List.mem_cons_of_mem b hy)
    obtain ⟨e1, e2⟩ := nibble_ops_eq b hb
    simp only [List.flatMap_cons, e1, e2, ih hr]

/-- The nibble expansion of a byte list has twice its length. -/
theorem flatMap_nibbles_length (bs : List Nat) :
    (bs.flatMap (fun byte => [(byte >>> 4) &&& 15, byte &&& 15])).length
      = 2 * bs.length := by
  induction bs with
  | nil => rfl
  | cons b rest ih =>
    simp only [List.flatMap_cons, List.length_append, List.length_cons,
      List.length_nil, ih]
    omega

/-- Every value in a nibble expansion is a nibble. -/
theorem flatMap_nibbles_lt (bs : List Nat) :
    ∀ v ∈ bs.flatMap (fun byte => [(byte >>> 4) &&& 15, byte &&& 15]),
      v < 16 := by
  intro v hv
  rw [List.mem_flatMap] at hv
  obtain ⟨a, ha, hv2⟩ := hv
  simp only [List.mem_cons, List.mem_singleton, List.not_mem_nil,
    or_false] at hv2
  rcases hv2 with h | h <;> subst h
  · have hle : (a >>> 4) &&& 15 ≤ 15 := Nat.and_le_right
    omega
  · have hle : a &&& 15 ≤ 15 := Nat.and_le_right
    omega

/-- With valid parameters the codec yields exactly the nibble expansion. -/
theorem flow_id_to_prefix_bytes_some (flow_id b_bits : Nat)
    (h1 : b_bits ≤ 32) (h2 : b_bits % 8 = 0) :
    flow_id_to_prefix_bytes flow_id b_bits =
      some (((u32_le_bytes flow_id).take (b_bits / 8)).flatMap
        (fun byte => [(byte >>> 4) &&& 15, byte &&& 15])) := by
  unfold flow_id_to_prefix_bytes
  rw [if_neg (by omega), if_neg (by omega)]

/-- Claim C5: for every flow id and every `B ≤ 32` with `B % 8 = 0`,
the codec returns exactly `B/4` values, each in `[0, 15]`: the leading
`B/8` bytes of the flow id's little-endian 4-byte representation, each
expanded into high nibble then low nibble, preserving byte order. -/
theorem prefix_bytes_shape_c5 (flow_id b_bits : Nat)
    (h1 : b_bits ≤ 32) (h2 : b_bits % 8 = 0) :
    flow_id_to_prefix_bytes flow_id b_bits =
      some (((u32_le_bytes flow_id).take (b_bits / 8)).flatMap
        (fun byte => [byte / 16, byte % 16])) ∧
    ∀ ns, flow_id_to_prefix_bytes flow_id b_bits = some ns →
      ns.length = b_bits / 4 ∧ ∀ v ∈ ns, v < 16 := by
  have hsome := flow_id_to_prefix_bytes_some flow_id b_bits h1 h2
  have htake : ∀ y ∈ (u32_le_bytes flow_id).take (b_bits / 8), y < 256 :=
    fun y hy => u32_le_bytes_lt flow_id y (List.mem_of_mem_take hy)
  constructor
  · rw [hsome, flatMap_nibbles_eq _ htake]
  · intro ns hns
    rw [hsome] at hns
    have hns2 := Option.some.inj hns
    subst hns2
    constructor
    · rw [flatMap_nibbles_length, List.length_take]
      have hlen : (u32_le_bytes flow_id).length = 4 := rfl
      rw [hlen]
      omega
    · exact flatMap_nibbles_lt _

/-- Witness for C5 at flow id 0xCAFEBABE and B = 16. -/
theorem prefix_bytes_shape_c5_witness :
    (16 : Nat) ≤ 32 ∧ (16 : Nat) % 8 = 0 ∧
    (flow_id_to_prefix_bytes 3405691582 16 =
      some (((u32_le_bytes 3405691582).take (16 / 8)).flatMap
        (fun byte => [byte / 16, byte % 16])) ∧
    ∀ ns, flow_id_to_prefix_bytes 3405691582 16 = some ns →
      ns.length = 16 / 4 ∧ ∀ v ∈ ns, v < 16) :=
  ⟨by decide, by decide, prefix_bytes_shape_c5 3405691582 16 (by decide) (by decide)⟩

/-- Recombining the nibble expansion of a byte list restores the list. -/
theorem recombine_flatMap (bs : List Nat) (h : ∀ y ∈ bs, y < 256) :
    recombinePairs
      (bs.flatMap (fun byte => [(byte >>> 4) &&& 15, byte &&& 15])) = bs := by
  induction bs with
  | nil => rfl
  | cons b rest ih =>
    have hb := h b (List.mem_cons_self b rest)
    have hr : ∀ y ∈ rest, y < 256 := fun y hy => h y (List.mem_cons_of_mem b hy)
    simp only [List.flatMap_cons, List.cons_append, List.nil_append]
    rw [recombinePairs]
    rw [nibble_recomb b hb, ih hr]

/-- Claim C6: recombining consecutive nibble pairs of the codec's output
as `16 × high + low` reconstructs exactly the first `B/8` bytes of the
flow id's little-endian 4-byte encoding. -/
theorem nibble_roundtrip_c6 (flow_id b_bits : Nat)
    (h1 : b_bits ≤ 32) (h2 : b_bits % 8 = 0) :
    ∀ ns, flow_id_to_prefix_bytes flow_id b_bits = some ns →
      recombinePairs ns = (u32_le_bytes flow_id).take (b_bits / 8) := by
  intro ns hns
  rw [flow_id_to_prefix_bytes_some flow_id b_bits h1 h2] at hns
  have hns2 := Option.some.inj hns
  subst hns2
  exact recombine_flatMap _
    (fun y hy => u32_le_bytes_lt flow_id y (List.mem_of_mem_take hy))

/-- Witness for C6 at flow id 0xCAFEBABE and B = 16. -/
theorem nibble_roundtrip_c6_witness :
    (16 : Nat) ≤ 32 ∧ (16 : Nat) % 8 = 0 ∧
    (∀ ns, flow_id_to_prefix_bytes 3405691582 16 = some ns →
      recombinePairs ns = (u32_le_bytes 3405691582).take (16 / 8)) :=
  ⟨by decide, by decide, nibble_roundtrip_c6 3405691582 16 (by decide) (by decide)⟩

/-- Claim C8: the codec aborts (modelled as `none`, matching the
`assert!` panics) exactly when `B > 32` or `B` is not a multiple of 8;
otherwise neither assertion fires and it returns normally. -/
theorem encoding_precondition_c8 (flow_id b_bits : Nat) :
    flow_id_to_prefix_bytes flow_id b_bits = none ↔
      32 < b_bits ∨ b_bits % 8 ≠ 0 := by
  unfold flow_id_to_prefix_bytes
  by_cases hb : b_bits > 32
  · rw [if_pos hb]
    simp [hb]
  · rw [if_neg hb]
    by_cases hm : b_bits % 8 ≠ 0
    · rw [if_pos hm]
      simp [hm]
    · rw [if_neg hm]
      simp [hm]
      omega

/-- Witness for C8 at `B = 40` (over-wide) and flow id 7. -/
theorem encoding_precondition_c8_witness :
    flow_id_to_prefix_bytes 7 40 = none ↔ 32 < 40 ∨ (40 : Nat) % 8 ≠ 0 :=
  encoding_precondition_c8 7 40

/-!
## Claims C2, C9, C7 (script assembly)
-/

/-- The F1 locking script as the claim words it: the concatenation, in
fixed order, of the signature-check fragment, the F1 threshold fragment
(push 100, OP_GREATERTHAN), a single OP_DROP, the external BLAKE3
fragment for message length 12 and limb width 4, `64 − len(prefix)`
OP_DROP opcodes, the prefix-match fragment, and OP_TRUE. -/
def f1_script_claim (blake3_fragment : Nat → Nat → Script)
    (signer_pubkey : Nat) (prefix_data : List Nat) : Script :=
  [Instr.pushKey signer_pubkey, Instr.op OP_CHECKSIGVERIFY] ++
  [Instr.op OP_DUP, Instr.pushInt 100, Instr.op OP_GREATERTHAN,
   Instr.op OP_VERIFY] ++
  [Instr.op OP_DROP] ++
  blake3_fragment 12 4 ++
  List.replicate (64 - prefix_data.length) (Instr.op OP_DROP) ++
  build_prefix_equalverify prefix_data ++
  [Instr.op OP_TRUE]

/-- The F2 locking script as the claim words it: like F1 but the
threshold fragment pushes 200 and uses OP_LESSTHAN. -/
def f2_script_claim (blake3_fragment : Nat → Nat → Script)
    (signer_pubkey : Nat) (prefix_data : List Nat) : Script :=
  [Instr.pushKey signer_pubkey, Instr.op OP_CHECKSIGVERIFY] ++
  [Instr.op OP_DUP, Instr.pushInt 200, Instr.op OP_LESSTHAN,
   Instr.op OP_VERIFY] ++
  [Instr.op OP_DROP] ++
  blake3_fragment 12 4 ++
  List.replicate (64 - prefix_data.length) (Instr.op OP_DROP) ++
  build_prefix_equalverify prefix_data ++
  [Instr.op OP_TRUE]

/-- Claim C2: for every signer key and prefix, the two builders return
exactly the concatenation, in fixed order, of the seven fragments
described by the claim (signature check; threshold with 100/strictly
greater for F1 and 200/strictly less for F2; one OP_DROP; the external
BLAKE3 compute fragment at message length 12, limb width 4;
`64 − len(prefix)` OP_DROPs; the prefix-match fragment; OP_TRUE). -/
theorem script_assembly_c2 (blake3_fragment : Nat → Nat → Script)
    (signer_pubkey : Nat) (prefix_data : List Nat) (b_bits : Nat) :
    build_script_f1_blake3_locked blake3_fragment signer_pubkey
        prefix_data b_bits
      = f1_script_claim blake3_fragment signer_pubkey prefix_data ∧
    build_script_f2_blake3_locked blake3_fragment signer_pubkey
        prefix_data b_bits
      = f2_script_claim blake3_fragment signer_pubkey prefix_data := by
  constructor
  · simp [build_script_f1_blake3_locked, f1_script_claim, combine_scripts,
      F1_THRESHOLD]
  · simp [build_script_f2_blake3_locked, f2_script_claim, combine_scripts,
      F2_THRESHOLD]

/-- Claim C9: assembler determinism — two calls of each builder with
identical (public key, prefix) inputs produce identical compiled
scripts; the unused `b_bits` argument does not influence the output. -/
theorem assembler_determinism_c9 (blake3_fragment : Nat → Nat → Script)
    (signer_pubkey : Nat) (prefix_data : List Nat) (b_bits b_bits2 : Nat) :
    build_script_f1_blake3_locked blake3_fragment signer_pubkey
        prefix_data b_bits
      = build_script_f1_blake3_locked blake3_fragment signer_pubkey
        prefix_data b_bits2 ∧
    build_script_f2_blake3_locked blake3_fragment signer_pubkey
        prefix_data b_bits
      = build_script_f2_blake3_locked blake3_fragment signer_pubkey
        prefix_data b_bits2 :=
  ⟨rfl, rfl⟩

/-- One push/OP_EQUALVERIFY pair consumes the top stack value and
continues exactly when it equals the pushed value. -/
theorem runFragment_push_eqv (v : Int) (s : Script) (st : List Int) :
    runFragment (Instr.pushInt v :: Instr.op OP_EQUALVERIFY :: s) st =
      match st with
      | a :: st2 => if v = a then runFragment s st2 else none
      | [] => none := by
  cases st with
  | nil => rfl
  | cons a st2 =>
    by_cases hva : v = a
    · simp [runFragment, stepInstr, hva]
    · simp [runFragment, stepInstr, hva]

/-- Running a push/OP_EQUALVERIFY chain built from the nibble list `l`
succeeds exactly on stacks that start with `l`'s values in order. -/
theorem runFragment_equalverify_chain (l : List Nat) :
    ∀ (st st' : List Int),
      runFragment
        (l.flatMap (fun nibble =>
          [Instr.pushInt (Int.ofNat nibble), Instr.op OP_EQUALVERIFY])) st
        = some st' ↔
      st = l.map Int.ofNat ++ st' := by
  induction l with
  | nil =>
    intro st st'
    simp [runFragment]
  | cons nib rest ih =>
    intro st st'
    rw [List.flatMap_cons, List.cons_append, List.cons_append, List.nil_append,
      runFragment_push_eqv]
    cases st with
    | nil => simp
    | cons a st2 =>
      dsimp only
      by_cases hva : Int.ofNat nib = a
      · rw [if_pos hva, ih st2 st']
        subst hva
        simp [List.map_cons]
      · rw [if_neg hva]
        constructor
        · intro h; exact Option.noConfusion h
        · intro h
          rw [List.map_cons, List.cons_append] at h
          exact absurd (List.cons.inj h).1.symm hva

/-- Claim C7: the prefix-match fragment emits, for each expected nibble
taken in reverse of its logical order, a push of that nibble followed by
OP_EQUALVERIFY; run on the mini stack semantics it accepts exactly the
stacks whose top values are the expected nibbles in that order, aborting
on any mismatch (fail-closed chained equality). -/
theorem prefix_match_fragment_c7 (prefix_data : List Nat) :
    build_prefix_equalverify prefix_data =
      prefix_data.reverse.flatMap
        (fun nibble =>
          [Instr.pushInt (Int.ofNat nibble), Instr.op OP_EQUALVERIFY]) ∧
    ∀ (st st' : List Int),
      runFragment (build_prefix_equalverify prefix_data) st = some st' ↔
        st = prefix_data.reverse.map Int.ofNat ++ st' := by
  refine ⟨rfl, ?_⟩
  intro st st'
  exact runFragment_equalverify_chain prefix_data.reverse st st'
